import Mathlib

/- Rational arithmetic is sealed in the library for elaboration performance;
reopen it so that concrete tensor computations evaluate under decide. -/
attribute [local semireducible] Rat.add Rat.sub Rat.mul Rat.inv

/-!
Shallow embedding of the delta tensor library (src/delta/src/common/tensor_ops.rs).

Scalars: f32 values are modelled exactly by the type F32 below, either a
rational number or the NaN value. IEEE rounding and infinities are outside
the model; no claim settled here depends on them. Fatal failures of the
source (expect, assert, index and arithmetic aborts) are modelled by
Option.none; recoverable errors (Result::Err) by Except.error.

The tensor type mirrors ndarray::ArrayD<f32>: an owned flat memory buffer,
a logical shape, and one stride per axis. In this source no stored tensor
ever carries a nonzero storage offset or a negative stride, so strides are
natural numbers and the storage offset is always zero. Operations that
materialize views (to_owned of slices and broadcasts, arithmetic, stacking,
dot, map_axis, sum_axis) produce freshly owned buffers in standard
row-major layout, while permuted_axes and mapv keep the buffer layout of
the receiver.
-/

inductive F32 where
  | nan : F32
  | val : ℚ → F32
deriving DecidableEq

namespace F32

def add : F32 → F32 → F32
  | val a, val b => val (a + b)
  | _, _ => nan

def sub : F32 → F32 → F32
  | val a, val b => val (a - b)
  | _, _ => nan

def mul : F32 → F32 → F32
  | val a, val b => val (a * b)
  | _, _ => nan

/-- Division of the f32 model. Division by zero yields NaN in the model
(IEEE would yield an infinity for a nonzero dividend; no claim settled here
depends on division values). -/
def div : F32 → F32 → F32
  | val a, val b => if b = 0 then nan else val (a / b)
  | _, _ => nan

/-- Model of f32 partial_cmp: none when either operand is NaN. -/
def pcmp : F32 → F32 → Option Ordering
  | val a, val b => some (if a < b then .lt else if a = b then .eq else .gt)
  | _, _ => none

/-- The order on non-NaN values induced by pcmp, used to state properties. -/
def fle (a b : F32) : Prop := pcmp a b = some .lt ∨ pcmp a b = some .eq

def flt (a b : F32) : Prop := pcmp a b = some .lt

end F32

/-- Row-major (C order) strides of a shape: the stride of an axis is the
product of the extents of the later axes. -/
def stdStrides : List Nat → List Nat
  | [] => []
  | _ :: rest => rest.prod :: stdStrides rest

/-- Memory offset of a multi-index under given strides. -/
def offsetOf (strides ix : List Nat) : Nat :=
  (List.zipWith (fun i s => i * s) ix strides).sum

/-- All multi-indices of a shape, enumerated in row-major order. -/
def allIx : List Nat → List (List Nat)
  | [] => [[]]
  | d :: rest => (List.range d).flatMap (fun i => (allIx rest).map (fun ix => i :: ix))

/-- The stride loop of ndarray is_standard_layout (is_layout_c): walk the
(extent, stride) pairs from the last axis backwards, skip axes of extent
one, and demand that each remaining stride equal the accumulated
contiguous stride. -/
def layoutCheck : List (Nat × Nat) → Nat → Bool
  | [], _ => true
  | (d, s) :: rest, contig =>
    if d = 1 then layoutCheck rest contig
    else decide (s = contig) && layoutCheck rest (contig * d)

/-- ndarray is_standard_layout on (shape, strides): true when some extent
is zero, otherwise the C-contiguity walk from the last axis backwards (at
rank zero the walk is empty and trivially true). One stride per axis is an
invariant of every array; the model makes it explicit in the first
conjunct. -/
def isStandardLayout (shape strides : List Nat) : Bool :=
  decide (shape.length = strides.length) &&
    (decide (0 ∈ shape) || layoutCheck ((shape.zip strides).reverse) 1)

/-- A tensor: logical shape, one stride per axis, owned flat buffer. -/
structure Tensor where
  shape : List Nat
  strides : List Nat
  buffer : List F32
deriving DecidableEq

/-- Logical element access through the strides. Every stored tensor of the
source reads within bounds; getD keeps the model total. -/
def Tensor.get (t : Tensor) (ix : List Nat) : F32 :=
  t.buffer.getD (offsetOf t.strides ix) (F32.val 0)

/-- The logical contents of a tensor in row-major order, the order in which
ndarray iterates elements. -/
def Tensor.elems (t : Tensor) : List F32 := (allIx t.shape).map t.get

/-- Index into a tensor being broadcast against an index of a larger target
shape: drop the extra leading coordinates and clamp the coordinates of
extent-one source axes to zero. -/
def bcIx (shape ix : List Nat) : List Nat :=
  List.zipWith (fun d i => if d = 1 then 0 else i) shape (ix.drop (ix.length - shape.length))

/-- Element access through broadcasting. -/
def Tensor.bget (t : Tensor) (ix : List Nat) : F32 := t.get (bcIx t.shape ix)

/-- Map with abort threading: none as soon as the element computation gives
none. This is the shape of a collect over fallible element computations. -/
def mapOpt (f : α → Option β) : List α → Option (List β)
  | [] => some []
  | x :: xs =>
    match f x, mapOpt f xs with
    | some y, some ys => some (y :: ys)
    | _, _ => none

/-- Tensor::new via ndarray from_shape_vec: aborts (expect) unless the
buffer length equals the product of the shape extents. -/
def Tensor.new (data : List F32) (shape : List Nat) : Option Tensor :=
  if data.length = shape.prod then some ⟨shape, stdStrides shape, data⟩ else none

/-- Tensor::zeros. -/
def Tensor.zeros (shape : List Nat) : Tensor :=
  ⟨shape, stdStrides shape, List.replicate shape.prod (F32.val 0)⟩

/-- Tensor::random, with the random number generator modelled as an oracle
stream of samples. -/
def Tensor.random (rng : Nat → F32) (shape : List Nat) : Tensor :=
  ⟨shape, stdStrides shape, (List.range shape.prod).map rng⟩

/-- Co-broadcast of two shapes as in ndarray binary arithmetic: align
trailing axes, pad the shorter shape with leading ones; aligned extents
must agree or one of them must be one. -/
def coShape (s t : List Nat) : Option (List Nat) :=
  mapOpt
    (fun p =>
      if p.1 = p.2 then some p.1
      else if p.1 = 1 then some p.2
      else if p.2 = 1 then some p.1 else none)
    ((List.replicate (max s.length t.length - s.length) 1 ++ s).zip
      (List.replicate (max s.length t.length - t.length) 1 ++ t))

/-- Tensor::add: ndarray co-broadcasts the operands and aborts on
incompatible shapes; the result is a fresh standard-layout array. -/
def Tensor.add (a b : Tensor) : Option Tensor :=
  (coShape a.shape b.shape).map (fun sh =>
    ⟨sh, stdStrides sh, (allIx sh).map (fun ix => F32.add (a.bget ix) (b.bget ix))⟩)

/-- Tensor::div, elementwise with the same co-broadcast as add. -/
def Tensor.div (a b : Tensor) : Option Tensor :=
  (coShape a.shape b.shape).map (fun sh =>
    ⟨sh, stdStrides sh, (allIx sh).map (fun ix => F32.div (a.bget ix) (b.bget ix))⟩)

/-- Tensor::max: Iterator::max_by over the elements with an unwrapped
partial comparison. It aborts on an empty tensor (unwrap of none) and
whenever a performed comparison involves NaN; on ties the later element is
kept, as in Iterator::max_by. -/
def Tensor.max (t : Tensor) : Option F32 :=
  match t.elems with
  | [] => none
  | x :: rest =>
    rest.foldlM (fun acc y => (F32.pcmp acc y).map (fun o => if o = .gt then acc else y)) x

/-- Tensor::map via ndarray mapv: on a memory-contiguous array (every
stored tensor of this source) mapv keeps the layout and maps the buffer in
memory order. -/
def Tensor.map (t : Tensor) (f : F32 → F32) : Tensor :=
  ⟨t.shape, t.strides, t.buffer.map f⟩

/-- Tensor::reshape via into_shape_with_order (row-major order): aborts
unless the element counts agree and the array is in standard layout. -/
def Tensor.reshape (t : Tensor) (newShape : List Nat) : Option Tensor :=
  if newShape.prod = t.shape.prod ∧ isStandardLayout t.shape t.strides = true then
    some ⟨newShape, stdStrides newShape, t.buffer⟩
  else none

/-- Tensor::flatten: into_shape_with_order to one axis holding every
element; like reshape it aborts on a non-standard layout. -/
def Tensor.flatten (t : Tensor) : Option Tensor :=
  if isStandardLayout t.shape t.strides = true then
    some ⟨[t.shape.prod], stdStrides [t.shape.prod], t.buffer⟩
  else none

/-- Tensor::slice: one half-open range per axis; ndarray aborts when the
number of ranges differs from the rank or a range is out of bounds; the
sliced view is materialized into a fresh standard-layout array. -/
def Tensor.slice (t : Tensor) (ranges : List (Nat × Nat)) : Option Tensor :=
  if ranges.length = t.shape.length ∧
      ∀ p ∈ ranges.zip t.shape, p.1.1 ≤ p.1.2 ∧ p.1.2 ≤ p.2 then
    some ⟨ranges.map (fun r => r.2 - r.1), stdStrides (ranges.map (fun r => r.2 - r.1)),
      (allIx (ranges.map (fun r => r.2 - r.1))).map
        (fun ix => t.get (List.zipWith (fun r i => r.1 + i) ranges ix))⟩
  else none

/-- Inner product of row i of a with column j of b over k terms, folded in
index order starting from zero as the ndarray dot kernel does. -/
def dotAt (a b : Tensor) (k i j : Nat) : F32 :=
  ((List.range k).map (fun s => F32.mul (a.get [i, s]) (b.get [s, j]))).foldl
    F32.add (F32.val 0)

/-- Tensor::matmul: aborts unless both operands have rank exactly two (rank
below two hits the explicit check, rank above two the Ix2 dimensionality
conversion) and aborts when the inner dimensions disagree; otherwise the
standard 2D matrix product in a fresh standard-layout array. -/
def Tensor.matmul (a b : Tensor) : Option Tensor :=
  match a.shape, b.shape with
  | [m, k], [k2, n] =>
    if k = k2 then
      some ⟨[m, n], stdStrides [m, n],
        (allIx [m, n]).map (fun ix => dotAt a b k (ix.getD 0 0) (ix.getD 1 0))⟩
    else none
  | _, _ => none

/-- Tensor::transpose: aborts below rank two; otherwise permuted_axes with
the reversed axis order, which reverses shape and strides together and
leaves the buffer in place. -/
def Tensor.transpose (t : Tensor) : Option Tensor :=
  if t.shape.length < 2 then none
  else some ⟨t.shape.reverse, t.strides.reverse, t.buffer⟩

/-- Tensor::permute via permuted_axes: aborts unless axes is a permutation
of 0..rank; axis i of the result is axis (axes i) of the input, for shape
and strides alike, with the buffer left in place. -/
def Tensor.permute (t : Tensor) (axes : List Nat) : Option Tensor :=
  if axes.length = t.shape.length ∧ axes.Nodup ∧ ∀ a ∈ axes, a < t.shape.length then
    some ⟨axes.map (fun a => t.shape.getD a 0), axes.map (fun a => t.strides.getD a 0),
      t.buffer⟩
  else none

/-- The shape with one axis removed. -/
def remAxis (shape : List Nat) (axis : Nat) : List Nat :=
  shape.take axis ++ shape.drop (axis + 1)

/-- Insert a coordinate for the collapsed axis back into an index over the
remaining axes. -/
def insertAt (ix : List Nat) (axis j : Nat) : List Nat :=
  ix.take axis ++ j :: ix.drop axis

/-- The lane of t along the given axis at a fixed index of the other axes. -/
def laneOf (t : Tensor) (axis : Nat) (ix : List Nat) : List F32 :=
  (List.range (t.shape.getD axis 0)).map (fun j => t.get (insertAt ix axis j))

/-- Tensor::sum_along_axis via sum_axis: aborts when the axis is out of
bounds; collapses the axis by summation. -/
def Tensor.sum_along_axis (t : Tensor) (axis : Nat) : Option Tensor :=
  if axis < t.shape.length then
    some ⟨remAxis t.shape axis, stdStrides (remAxis t.shape axis),
      (allIx (remAxis t.shape axis)).map
        (fun ix => (laneOf t axis ix).foldl F32.add (F32.val 0))⟩
  else none

/-- Tensor::reduce_sum performs the same computation as sum_along_axis. -/
def Tensor.reduce_sum (t : Tensor) (axis : Nat) : Option Tensor :=
  t.sum_along_axis axis

/-- Tensor::mean_axis: aborts when the axis is out of bounds and also when
the collapsed axis is empty (ndarray mean_axis returns None there and the
source unwraps it with expect). -/
def Tensor.mean_axis (t : Tensor) (axis : Nat) : Option Tensor :=
  if axis < t.shape.length ∧ t.shape.getD axis 0 ≠ 0 then
    some ⟨remAxis t.shape axis, stdStrides (remAxis t.shape axis),
      (allIx (remAxis t.shape axis)).map (fun ix =>
        F32.div ((laneOf t axis ix).foldl F32.add (F32.val 0))
          (F32.val (t.shape.getD axis 0)))⟩
  else none

/-- Pair each element of a lane with its position, starting at i, as
indexed_iter does starting at zero. -/
def idxFrom (i : Nat) : List F32 → List (Nat × F32)
  | [] => []
  | x :: xs => (i, x) :: idxFrom (i + 1) xs

/-- Iterator::max_by over (index, value) pairs with an unwrapped partial
comparison of the values: the accumulator survives only a strictly greater
comparison, so ties go to the later element; a NaN comparison aborts. -/
def maxByPair (l : List (Nat × F32)) : Option (Nat × F32) :=
  match l with
  | [] => none
  | p :: rest =>
    rest.foldlM
      (fun acc q => (F32.pcmp acc.2 q.2).map (fun o => if o = .gt then acc else q)) p

/-- Index of the maximum of one lane: none on an empty lane (unwrap of the
empty max_by) or on a NaN comparison. -/
def laneArgmax (lane : List F32) : Option Nat :=
  (maxByPair (idxFrom 0 lane)).map (fun p => p.1)

/-- Tensor::argmax via map_axis over lanes along the axis: aborts when the
axis is out of bounds, when a lane is empty, or when a NaN comparison
occurs; the resulting indices are stored as floating point values. -/
def Tensor.argmax (t : Tensor) (axis : Nat) : Option Tensor :=
  if axis < t.shape.length then
    (mapOpt (fun ix => (laneArgmax (laneOf t axis ix)).map (fun j => F32.val j))
        (allIx (remAxis t.shape axis))).map
      (fun vals => ⟨remAxis t.shape axis, stdStrides (remAxis t.shape axis), vals⟩)
  else none

/-- Tensor::broadcast: pad the source shape with leading ones (a target
rank below the source rank aborts already in the unsigned padding
subtraction), require every aligned extent pair to agree or the source
extent to be one, and materialize the broadcast view. -/
def Tensor.broadcast (t : Tensor) (target : List Nat) : Option Tensor :=
  if t.shape.length ≤ target.length ∧
      ∀ p ∈ (List.replicate (target.length - t.shape.length) 1 ++ t.shape).zip target,
        p.1 = p.2 ∨ p.1 = 1 then
    some ⟨target, stdStrides target, (allIx target).map t.bget⟩
  else none

/-- Tensor::take: gathers rows along axis zero by copying raw memory
slices, so it aborts on rank zero (index of extent zero), on an extent-zero
leading axis (division by zero), on a non-standard layout (as_slice
unwrap), and on an out-of-range row slice. -/
def Tensor.take (t : Tensor) (indices : List Nat) : Option Tensor :=
  match t.shape with
  | [] => none
  | d0 :: rest =>
    if d0 ≠ 0 ∧ isStandardLayout t.shape t.strides = true ∧
        ∀ i ∈ indices, (i + 1) * (t.buffer.length / d0) ≤ t.buffer.length then
      some ⟨indices.length :: rest, stdStrides (indices.length :: rest),
        indices.flatMap (fun i =>
          (t.buffer.drop (i * (t.buffer.length / d0))).take (t.buffer.length / d0))⟩
    else none

/-- Tensor::to_vec via as_slice: the raw buffer when the array is in
standard layout, and the empty vector otherwise (unwrap_or of the none
slice). -/
def Tensor.to_vec (t : Tensor) : List F32 :=
  if isStandardLayout t.shape t.strides then t.buffer else []

/-- Tensor::stack: recoverable errors on an empty input or on a shape
mismatch, otherwise concatenation of the logical contents along a new
leading axis. -/
def Tensor.stack (tensors : List Tensor) : Except String Tensor :=
  match tensors with
  | [] => Except.error "Cannot stack an empty list of tensors."
  | t0 :: _ =>
    if ∀ t ∈ tensors, t.shape = t0.shape then
      Except.ok ⟨tensors.length :: t0.shape, stdStrides (tensors.length :: t0.shape),
        tensors.flatMap Tensor.elems⟩
    else Except.error "All tensors must have the same shape."

/-- Tensor::split_at: the two-axis slice specification restricts it to rank
exactly two (the rank assertions admit two and above, the slice call aborts
above two); the split index may not exceed the extent of axis zero. Both
halves are materialized standard-layout copies. -/
def Tensor.split_at (t : Tensor) (index : Nat) : Option (Tensor × Tensor) :=
  match t.shape with
  | [d0, d1] =>
    if index ≤ d0 then
      some
        (⟨[index, d1], stdStrides [index, d1], (allIx [index, d1]).map t.get⟩,
         ⟨[d0 - index, d1], stdStrides [d0 - index, d1],
           (allIx [d0 - index, d1]).map
             (fun ix => t.get [index + ix.getD 0 0, ix.getD 1 0])⟩)
    else none
  | _ => none

/-- Whether the source shape broadcasts to exactly the target shape, as
ndarray requires of the right operand of an in-place operation. -/
def canBroadcastTo (src tgt : List Nat) : Bool :=
  decide (src.length ≤ tgt.length) &&
    ((List.replicate (tgt.length - src.length) 1 ++ src).zip tgt).all
      (fun p => p.1 == p.2 || p.1 == 1)

/-- The SubAssign implementation: self.data -= &rhs.data, which broadcasts
the right hand side to the shape of the receiver and aborts when that is
impossible; each logical element of the receiver is updated in place
through the layout of the receiver, reading the pre-mutation values. -/
def Tensor.sub_assign (a b : Tensor) : Option Tensor :=
  if canBroadcastTo b.shape a.shape then
    some ⟨a.shape, a.strides,
      (allIx a.shape).foldl
        (fun buf ix => buf.set (offsetOf a.strides ix) (F32.sub (a.get ix) (b.bget ix)))
        a.buffer⟩
  else none

/-- The length half of the representation invariant: the flat buffer holds
exactly product-of-shape elements. -/
abbrev Tensor.lenInv (t : Tensor) : Prop := t.buffer.length = t.shape.prod

/-- A concrete standard-layout 2 by 3 tensor holding 1..6. -/
def tRM : Tensor :=
  ⟨[2, 3], [3, 1], [F32.val 1, F32.val 2, F32.val 3, F32.val 4, F32.val 5, F32.val 6]⟩

/-- The transpose of tRM as the source produces it: permuted strides over
the same buffer. -/
def tCM : Tensor :=
  ⟨[3, 2], [1, 3], [F32.val 1, F32.val 2, F32.val 3, F32.val 4, F32.val 5, F32.val 6]⟩

/-- A concrete 2 by 2 matrix [[1,2],[3,4]]. -/
def mA : Tensor := ⟨[2, 2], [2, 1], [F32.val 1, F32.val 2, F32.val 3, F32.val 4]⟩

/-- The 2 by 2 identity matrix. -/
def mI : Tensor := ⟨[2, 2], [2, 1], [F32.val 1, F32.val 0, F32.val 0, F32.val 1]⟩

/-- A single row of shape (1, 3). -/
def row13 : Tensor := ⟨[1, 3], [3, 1], [F32.val 10, F32.val 20, F32.val 30]⟩

/-- A rank one tensor of two elements. -/
def vec2 : Tensor := ⟨[2], [1], [F32.val 10, F32.val 20]⟩

/-- A rank one tensor with two equal elements, for argmax tie breaking. -/
def tie2 : Tensor := ⟨[2], [1], [F32.val 5, F32.val 5]⟩

/-- A single-element tensor holding NaN. -/
def nan1 : Tensor := ⟨[1], [1], [F32.nan]⟩

/-- A rank one tensor of three elements. -/
def s3a : Tensor := ⟨[3], [1], [F32.val 1, F32.val 2, F32.val 3]⟩

/-- Another rank one tensor of three elements. -/
def s3b : Tensor := ⟨[3], [1], [F32.val 4, F32.val 5, F32.val 6]⟩

/-- A rank one tensor of one element, below the transpose rank bound. -/
def one1 : Tensor := ⟨[1], [1], [F32.val 7]⟩

/-- An empty tensor: extent zero, no elements. -/
def empty0 : Tensor := ⟨[0], [1], []⟩

/-- A two-element tensor whose first element is NaN. -/
def nanPair : Tensor := ⟨[2], [1], [F32.nan, F32.val 3]⟩

/-- Straight-line characterization of the C-contiguity walk, used to reason
about layoutCheck: every axis either has extent one or carries the row-major
stride for its position. -/
def StridesOK : List Nat → List Nat → Prop
  | [], [] => True
  | d :: ds, s :: ss => (d = 1 ∨ s = ds.prod) ∧ StridesOK ds ss
  | _, _ => False

/-- allIx enumerates exactly product-of-extents indices. -/
theorem allIx_length (s : List Nat) : (allIx s).length = s.prod := by
  induction s with
  | nil => rfl
  | cons d rest ih =>
    simp only [allIx, List.length_flatMap, List.prod_cons]
    have h1 : List.map (List.length ∘ fun i => List.map (fun ix => i :: ix) (allIx rest))
        (List.range d) = List.map (fun _ => rest.prod) (List.range d) :=
      List.map_congr_left (fun x _ => by simp [ih])
    rw [h1, List.map_const']
    simp [List.sum_replicate, smul_eq_mul]

/-- Membership in allIx is coordinatewise boundedness. -/
theorem mem_allIx {s ix : List Nat} :
    ix ∈ allIx s ↔ List.Forall₂ (fun i d => i < d) ix s := by
  induction s generalizing ix with
  | nil =>
    simp only [allIx, List.mem_singleton, List.forall₂_nil_right_iff]
  | cons d rest ih =>
    simp only [allIx, List.mem_flatMap, List.mem_map, List.mem_range,
      List.forall₂_cons_right_iff]
    constructor
    · rintro ⟨i, hi, ix', hix', rfl⟩
      exact ⟨i, ix', hi, ih.mp hix', rfl⟩
    · rintro ⟨i, ix', hi, h2, rfl⟩
      exact ⟨i, hi, ix', ih.mpr h2, rfl⟩

/-- A tensor built over allIx has one buffer entry per logical element. -/
theorem elems_length (t : Tensor) : t.elems.length = t.shape.prod := by
  simp [Tensor.elems, allIx_length]

/-- mapOpt preserves the length on success. -/
theorem mapOpt_length {f : α → Option β} :
    ∀ {l : List α} {l2 : List β}, mapOpt f l = some l2 → l2.length = l.length := by
  intro l
  induction l with
  | nil => intro l2 h; cases h; rfl
  | cons x xs ih =>
    intro l2 h
    simp only [mapOpt] at h
    cases hx : f x with
    | none => rw [hx] at h; simp at h
    | some y =>
      rw [hx] at h
      cases hxs : mapOpt f xs with
      | none => rw [hxs] at h; simp at h
      | some ys =>
        rw [hxs] at h
        cases h
        simp [ih hxs]

/-- Processing one more pair at the end of the walk: the accumulated
contiguous stride over a block of pairs is the starting value times the
product of the extents (extent-one axes contribute a factor one either
way). -/
theorem layoutCheck_append (L : List (Nat × Nat)) (c : Nat) (d s : Nat) :
    layoutCheck (L ++ [(d, s)]) c =
      (layoutCheck L c && (if d = 1 then true else decide (s = c * (L.map Prod.fst).prod))) := by
  induction L generalizing c with
  | nil =>
    by_cases hd : d = 1 <;> simp [layoutCheck, hd]
  | cons p L ih =>
    obtain ⟨d0, s0⟩ := p
    simp only [List.cons_append, layoutCheck, List.map_cons, List.prod_cons, List.append_eq]
    by_cases h0 : d0 = 1
    · rw [if_pos h0, if_pos h0, ih c, h0]
      simp
    · rw [if_neg h0, if_neg h0, ih (c * d0), Nat.mul_assoc]
      simp [Bool.and_assoc]

/-- Over a shape without zero extents, the backwards C-contiguity walk is
the straight-line characterization. -/
theorem layoutCheck_iff_StridesOK :
    ∀ (shape strides : List Nat), shape.length = strides.length →
      (layoutCheck ((shape.zip strides).reverse) 1 = true ↔ StridesOK shape strides) := by
  intro shape
  induction shape with
  | nil =>
    intro strides hlen
    cases strides with
    | nil => simp [layoutCheck, StridesOK]
    | cons s ss => simp at hlen
  | cons d ds ih =>
    intro strides hlen
    cases strides with
    | nil => simp at hlen
    | cons s ss =>
      have hlen2 : ds.length = ss.length := by simpa using hlen
      simp only [List.zip_cons_cons, List.reverse_cons, layoutCheck_append]
      have hfst : ((ds.zip ss).reverse.map Prod.fst).prod = ds.prod := by
        rw [List.map_reverse, List.prod_reverse]
        congr 1
        exact List.map_fst_zip ds ss (le_of_eq hlen2)
      rw [hfst]
      constructor
      · intro h
        have h1 := (Bool.and_eq_true _ _).mp h
        refine ⟨?_, (ih ss hlen2).mp h1.1⟩
        by_cases hd : d = 1
        · exact Or.inl hd
        · right
          have := h1.2
          rw [if_neg hd] at this
          simpa using this
      · intro h
        obtain ⟨h1, h2⟩ := h
        rw [Bool.and_eq_true]
        refine ⟨(ih ss hlen2).mpr h2, ?_⟩
        rcases h1 with h1 | h1
        · simp [h1]
        · by_cases hd : d = 1
          · simp [hd]
          · simp [hd, h1]

/-- The row-major strides satisfy the straight-line characterization. -/
theorem stridesOK_stdStrides : ∀ (s : List Nat), StridesOK s (stdStrides s)
  | [] => trivial
  | _ :: rest => ⟨Or.inr rfl, stridesOK_stdStrides rest⟩

/-- stdStrides has one stride per axis. -/
theorem stdStrides_length (s : List Nat) : (stdStrides s).length = s.length := by
  induction s with
  | nil => rfl
  | cons d rest ih => simp [stdStrides, ih]

/-- A freshly materialized array is in standard layout. -/
theorem isStandardLayout_std (s : List Nat) : isStandardLayout s (stdStrides s) = true := by
  unfold isStandardLayout
  rw [Bool.and_eq_true]
  refine ⟨by simp [stdStrides_length], ?_⟩
  have hstd := (layoutCheck_iff_StridesOK s (stdStrides s)
    (stdStrides_length s).symm).mpr (stridesOK_stdStrides s)
  simp [hstd]

/-- Under positive extents and row-major-compatible strides, the offset of
every valid multi-index is below the element count. -/
theorem offset_lt :
    ∀ (shape strides ix : List Nat), (∀ d ∈ shape, 0 < d) → StridesOK shape strides →
      ix ∈ allIx shape → offsetOf strides ix < shape.prod := by
  intro shape
  induction shape with
  | nil =>
    intro strides ix _ hok hix
    cases strides with
    | nil =>
      have : ix = [] := by simpa [allIx] using hix
      subst this
      simp [offsetOf]
    | cons s ss => exact absurd hok (by simp [StridesOK])
  | cons d ds ih =>
    intro strides ix hpos hok hix
    cases strides with
    | nil => exact absurd hok (by simp [StridesOK])
    | cons s ss =>
      obtain ⟨h1, h2⟩ := hok
      rw [mem_allIx] at hix
      rcases hix with _ | @⟨i, _, ix', _, hi, hix'⟩
      have hmem : ix' ∈ allIx ds := mem_allIx.mpr hix'
      have hoff : offsetOf ss ix' < ds.prod :=
        ih ss ix' (fun x hx => hpos x (List.mem_cons_of_mem d hx)) h2 hmem
      have hexp : offsetOf (s :: ss) (i :: ix') = i * s + offsetOf ss ix' := by
        simp [offsetOf, List.zipWith_cons_cons]
      rw [hexp, List.prod_cons]
      rcases h1 with h1 | h1
      · subst h1
        have : i = 0 := by omega
        subst this
        simpa using hoff
      · subst h1
        have hi2 : i + 1 ≤ d := hi
        calc i * ds.prod + offsetOf ss ix' < i * ds.prod + ds.prod := by omega
        _ = (i + 1) * ds.prod := by ring
        _ ≤ d * ds.prod := Nat.mul_le_mul_right _ hi2

/-- getD after drop shifts the position. -/
theorem getD_drop (l : List α) (n m : Nat) (z : α) :
    (l.drop n).getD m z = l.getD (n + m) z := by
  simp [List.getD, List.getElem?_drop]

/-- getD before the truncation point is unchanged by take. -/
theorem getD_take (l : List α) (n m : Nat) (z : α) (h : m < n) :
    (l.take n).getD m z = l.getD m z := by
  simp [List.getD, List.getElem?_take, h]

/-- Offsets decompose along a leading axis. -/
theorem offsetOf_cons (s : Nat) (ss : List Nat) (i : Nat) (ix : List Nat) :
    offsetOf (s :: ss) (i :: ix) = i * s + offsetOf ss ix := by
  simp [offsetOf]


/-- Block decomposition of a buffer into k rows of ds.prod elements: if the
row readout reproduces any row-sized buffer, the chunked readout reproduces
the whole buffer. -/
theorem chunk_readout (ds ss : List Nat) (hpos2 : ∀ x ∈ ds, 0 < x) (h2 : StridesOK ds ss)
    (ihds : ∀ buf : List F32, buf.length = ds.prod →
      (allIx ds).map (fun ix => buf.getD (offsetOf ss ix) (F32.val 0)) = buf) :
    ∀ (k : Nat) (b : List F32), b.length = k * ds.prod →
      (List.range k).flatMap (fun i => (allIx ds).map
        (fun ix => b.getD (i * ds.prod + offsetOf ss ix) (F32.val 0))) = b := by
  have hp : 0 < ds.prod := List.prod_pos hpos2
  intro k
  induction k with
  | zero =>
    intro b hb
    simp only [List.range_zero, List.flatMap_nil]
    exact (List.length_eq_zero.mp (by simpa using hb)).symm
  | succ k ihk =>
    intro b hb
    have hge : ds.prod ≤ b.length := by
      rw [hb, Nat.succ_mul]
      exact Nat.le_add_left _ _
    rw [List.range_succ_eq_map, List.flatMap_cons, List.flatMap_map]
    simp only [Nat.succ_eq_add_one, Function.comp_def]
    have hseg0 : (allIx ds).map
          (fun ix => b.getD (0 * ds.prod + offsetOf ss ix) (F32.val 0)) = b.take ds.prod := by
      have hc : (allIx ds).map
            (fun ix => b.getD (0 * ds.prod + offsetOf ss ix) (F32.val 0)) =
          (allIx ds).map (fun ix => (b.take ds.prod).getD (offsetOf ss ix) (F32.val 0)) :=
        List.map_congr_left (fun ix hix => by
          have hlt : offsetOf ss ix < ds.prod := offset_lt ds ss ix hpos2 h2 hix
          rw [Nat.zero_mul, Nat.zero_add, getD_take _ _ _ _ hlt])
      rw [hc]
      apply ihds
      rw [List.length_take]
      exact Nat.min_eq_left hge
    have htail : ((List.range k).flatMap fun i =>
          (allIx ds).map
            (fun ix => b.getD ((i + 1) * ds.prod + offsetOf ss ix) (F32.val 0))) =
        b.drop ds.prod := by
      have hc : ∀ i ∈ List.range k,
          ((allIx ds).map
            (fun ix => b.getD ((i + 1) * ds.prod + offsetOf ss ix) (F32.val 0))) =
          (allIx ds).map
            (fun ix => (b.drop ds.prod).getD (i * ds.prod + offsetOf ss ix) (F32.val 0)) := by
        intro i _
        refine List.map_congr_left (fun ix _ => ?_)
        rw [getD_drop]
        congr 1
        ring
      rw [List.flatMap_congr hc]
      apply ihk
      rw [List.length_drop, hb, Nat.succ_mul, Nat.add_sub_cancel]
    rw [hseg0, htail, List.take_append_drop]

/-- Reading a buffer back through row-major-compatible strides in row-major
index order reproduces the buffer, given positive extents. -/
theorem readout_pos :
    ∀ (shape strides : List Nat) (buf : List F32), (∀ d ∈ shape, 0 < d) →
      StridesOK shape strides → buf.length = shape.prod →
      (allIx shape).map (fun ix => buf.getD (offsetOf strides ix) (F32.val 0)) = buf := by
  intro shape
  induction shape with
  | nil =>
    intro strides buf _ hok hlen
    cases strides with
    | nil =>
      obtain ⟨x, hx⟩ := List.length_eq_one.mp (by simpa using hlen)
      subst hx
      simp [allIx, offsetOf]
    | cons s ss => exact absurd hok (by simp [StridesOK])
  | cons d ds ih =>
    intro strides buf hpos hok hlen
    cases strides with
    | nil => exact absurd hok (by simp [StridesOK])
    | cons s ss =>
      obtain ⟨h1, h2⟩ := hok
      have hpos2 : ∀ x ∈ ds, 0 < x := fun x hx => hpos x (List.mem_cons_of_mem d hx)
      simp only [allIx, List.map_flatMap, List.map_map, Function.comp_def, offsetOf_cons]
      rcases h1 with h1 | h1
      · subst h1
        have hr1 : List.range 1 = [0] := rfl
        rw [hr1, List.flatMap_cons, List.flatMap_nil, List.append_nil]
        have hcong : (allIx ds).map (fun ix => buf.getD (0 * s + offsetOf ss ix) (F32.val 0)) =
            (allIx ds).map (fun ix => buf.getD (offsetOf ss ix) (F32.val 0)) :=
          List.map_congr_left (fun ix _ => by rw [Nat.zero_mul, Nat.zero_add])
        rw [hcong]
        exact ih ss buf hpos2 h2 (by simpa using hlen)
      · subst h1
        exact chunk_readout ds ss hpos2 h2 (fun b hb => ih ss b hpos2 h2 hb) d buf
          (by simpa [List.prod_cons] using hlen)

/-- The master readout lemma: a standard-layout tensor with the right buffer
length reads back its buffer in row-major index order. -/
theorem readout_std (shape strides : List Nat) (buf : List F32)
    (hstd : isStandardLayout shape strides = true) (hlen : buf.length = shape.prod) :
    (allIx shape).map (fun ix => buf.getD (offsetOf strides ix) (F32.val 0)) = buf := by
  unfold isStandardLayout at hstd
  rw [Bool.and_eq_true] at hstd
  obtain ⟨hl, hrest⟩ := hstd
  have hlen2 : shape.length = strides.length := of_decide_eq_true hl
  by_cases h0 : 0 ∈ shape
  · have hprod : shape.prod = 0 := List.prod_eq_zero h0
    have hnil : allIx shape = [] := List.length_eq_zero.mp (by rw [allIx_length, hprod])
    rw [hnil, List.map_nil]
    exact (List.length_eq_zero.mp (by rw [hlen, hprod])).symm
  · have hpos : ∀ d ∈ shape, 0 < d :=
      fun d hd => Nat.pos_of_ne_zero (fun h => h0 (h ▸ hd))
    have hlc : layoutCheck ((shape.zip strides).reverse) 1 = true := by
      simpa [h0] using hrest
    exact readout_pos shape strides buf hpos
      ((layoutCheck_iff_StridesOK shape strides hlen2).mp hlc) hlen

/-- The logical contents of a standard-layout tensor are its buffer. -/
theorem elems_of_std (t : Tensor) (hstd : isStandardLayout t.shape t.strides = true)
    (hlen : t.buffer.length = t.shape.prod) : t.elems = t.buffer :=
  readout_std t.shape t.strides t.buffer hstd hlen

/-- A tensor freshly materialized over allIx reads back its generating
function. -/
theorem get_mk (sh : List Nat) (f : List Nat → F32) :
    ∀ ix ∈ allIx sh, (Tensor.mk sh (stdStrides sh) ((allIx sh).map f)).get ix = f ix := by
  have hlen : ((allIx sh).map f).length = sh.prod := by
    rw [List.length_map, allIx_length]
  have h : (allIx sh).map (Tensor.mk sh (stdStrides sh) ((allIx sh).map f)).get =
      (allIx sh).map f :=
    readout_std sh (stdStrides sh) ((allIx sh).map f) (isStandardLayout_std sh) hlen
  intro ix hix
  exact List.map_eq_map_iff.mp h ix hix

/-- The elems of a freshly materialized tensor are the generating values. -/
theorem elems_mk (sh : List Nat) (f : List Nat → F32) :
    (Tensor.mk sh (stdStrides sh) ((allIx sh).map f)).elems = (allIx sh).map f :=
  elems_of_std _ (isStandardLayout_std sh) (by rw [List.length_map, allIx_length])

/-- C2: Tensor::new succeeds exactly when the buffer length equals the
product of the shape extents; on disagreement the call aborts (expect). -/
theorem new_succeeds_iff_len_eq_prod (data : List F32) (shape : List Nat) :
    (Tensor.new data shape).isSome = true ↔ data.length = shape.prod := by
  by_cases h : data.length = shape.prod <;> simp [Tensor.new, h]

/-- C9: transpose aborts below rank two, and applied twice to a tensor of
rank at least two it returns a tensor value-equal to the original (here
even structurally equal). -/
theorem transpose_twice_id (t : Tensor) :
    (t.shape.length < 2 → t.transpose = none) ∧
    (2 ≤ t.shape.length → ∃ u v, t.transpose = some u ∧ u.transpose = some v ∧
      v.shape = t.shape ∧ v.elems = t.elems) := by
  constructor
  · intro h
    simp [Tensor.transpose, h]
  · intro h
    have h1 : ¬ t.shape.length < 2 := by omega
    refine ⟨⟨t.shape.reverse, t.strides.reverse, t.buffer⟩, t, ?_, ?_, rfl, rfl⟩
    · simp [Tensor.transpose, h1]
    · have h2 : ¬ t.shape.reverse.length < 2 := by simpa using h1
      simp only [Tensor.transpose, if_neg h2, List.reverse_reverse]

/-- C9 witness at concrete inputs. -/
theorem transpose_twice_id_witness :
    Tensor.transpose one1 = none ∧
    (∃ u v, Tensor.transpose tRM = some u ∧ u.transpose = some v ∧
      v.shape = tRM.shape ∧ v.elems = tRM.elems) :=
  ⟨(transpose_twice_id one1).1 (by decide), (transpose_twice_id tRM).2 (by decide)⟩

/-- C7 counterexample: the transpose of the 2 by 3 tensor 1..6 is not in
standard layout, so to_vec returns the empty vector rather than the
row-major elements. -/
theorem to_vec_counterexample :
    Tensor.transpose tRM = some tCM ∧
    Tensor.to_vec tCM = [] ∧
    tCM.elems = [F32.val 1, F32.val 4, F32.val 2, F32.val 5, F32.val 3, F32.val 6] ∧
    Tensor.to_vec tCM ≠ tCM.elems :=
  ⟨by decide, by decide, by decide, by decide⟩

/-- C7 amended: to_vec returns the elements in row-major order exactly for
standard-layout tensors; for any other layout (such as the results of
transpose and permute on most shapes) it returns the empty vector. -/
theorem to_vec_amended (t : Tensor) (hlen : t.buffer.length = t.shape.prod) :
    (isStandardLayout t.shape t.strides = true → t.to_vec = t.elems) ∧
    (isStandardLayout t.shape t.strides = false → t.to_vec = []) := by
  constructor
  · intro h
    rw [Tensor.to_vec, if_pos (by simp [h]), elems_of_std t h hlen]
  · intro h
    rw [Tensor.to_vec, if_neg (by simp [h])]

/-- C7 amended witness at concrete inputs. -/
theorem to_vec_amended_witness : Tensor.to_vec tRM = tRM.elems ∧ Tensor.to_vec tCM = [] :=
  ⟨(to_vec_amended tRM (by decide)).1 (by decide),
   (to_vec_amended tCM (by decide)).2 (by decide)⟩

/-- C4: broadcast pads the source shape with leading ones against the
trailing-aligned target, aborts whenever some aligned pair has a source
extent differing from the target extent and from one, and on compatible
shapes materializes the replicated values into the target shape. -/
theorem broadcast_spec (t : Tensor) (target : List Nat)
    (hr : t.shape.length ≤ target.length) :
    ((∃ p ∈ (List.replicate (target.length - t.shape.length) 1 ++ t.shape).zip target,
        p.1 ≠ p.2 ∧ p.1 ≠ 1) → t.broadcast target = none) ∧
    ((∀ p ∈ (List.replicate (target.length - t.shape.length) 1 ++ t.shape).zip target,
        p.1 = p.2 ∨ p.1 = 1) →
      ∃ r, t.broadcast target = some r ∧ r.shape = target ∧
        ∀ ix ∈ allIx target, r.get ix = t.bget ix) := by
  constructor
  · rintro ⟨p, hp, hne, hne1⟩
    rw [Tensor.broadcast, if_neg]
    rintro ⟨-, hall⟩
    rcases hall p hp with h | h
    · exact hne h
    · exact hne1 h
  · intro hall
    rw [Tensor.broadcast, if_pos ⟨hr, hall⟩]
    exact ⟨_, rfl, rfl, get_mk target t.bget⟩

/-- C4 witness: shape (2,3) does not broadcast to (2,4); shape (1,3)
broadcasts to (4,3). -/
theorem broadcast_spec_witness :
    Tensor.broadcast tRM [2, 4] = none ∧ (Tensor.broadcast row13 [4, 3]).isSome = true := by
  constructor
  · exact (broadcast_spec tRM [2, 4] (by decide)).1 ⟨(3, 4), by decide, by decide, by decide⟩
  · obtain ⟨r, h1, -, -⟩ := (broadcast_spec row13 [4, 3] (by decide)).2 (by decide)
    rw [h1]
    rfl

/-- C3: matmul aborts unless both operands have rank exactly two, aborts on
rank two operands whose inner dimensions disagree, and on matching rank two
operands produces the standard matrix product with shape (rows of self,
cols of other). -/
theorem matmul_spec (a b : Tensor) :
    (a.shape.length ≠ 2 ∨ b.shape.length ≠ 2 → a.matmul b = none) ∧
    (∀ m k k2 n, a.shape = [m, k] → b.shape = [k2, n] →
      (k ≠ k2 → a.matmul b = none) ∧
      (k = k2 → ∃ r, a.matmul b = some r ∧ r.shape = [m, n] ∧
        ∀ i j, i < m → j < n → r.get [i, j] = dotAt a b k i j)) := by
  constructor
  · intro h
    cases hm : a.matmul b with
    | none => rfl
    | some r =>
      exfalso
      unfold Tensor.matmul at hm
      split at hm
      · rename_i m k k2 n ha hb
        rcases h with h | h
        · rw [ha] at h
          simp at h
        · rw [hb] at h
          simp at h
      · simp at hm
  · intro m k k2 n ha hb
    constructor
    · intro hk
      simp [Tensor.matmul, ha, hb, hk]
    · intro hk
      subst hk
      refine ⟨Tensor.mk [m, n] (stdStrides [m, n])
        ((allIx [m, n]).map (fun ix => dotAt a b k (ix.getD 0 0) (ix.getD 1 0))), ?_, rfl, ?_⟩
      · simp [Tensor.matmul, ha, hb]
      · intro i j hi hj
        have hmem : [i, j] ∈ allIx [m, n] :=
          mem_allIx.mpr (List.Forall₂.cons hi (List.Forall₂.cons hj List.Forall₂.nil))
        have hg := get_mk [m, n] (fun ix => dotAt a b k (ix.getD 0 0) (ix.getD 1 0)) [i, j] hmem
        simpa using hg

/-- C3 witness: rank one times rank two aborts; [[1,2],[3,4]] times the
identity succeeds (and equals the original matrix). -/
theorem matmul_spec_witness :
    Tensor.matmul one1 mA = none ∧ (Tensor.matmul mA mI).isSome = true ∧
    Tensor.matmul mA mI = some mA := by
  refine ⟨(matmul_spec one1 mA).1 (Or.inl (by decide)), ?_, by decide⟩
  obtain ⟨r, h1, -, -⟩ := ((matmul_spec mA mI).2 2 2 2 2 rfl rfl).2 rfl
  rw [h1]
  rfl

/-- C8: stack returns a recoverable error exactly on an empty input or on a
shape mismatch; on a non-empty input of identically shaped tensors it
succeeds with one new leading axis holding the inputs in order. -/
theorem stack_spec (ts : List Tensor) :
    (ts = [] → ∃ e, Tensor.stack ts = Except.error e) ∧
    (∀ t0 rest, ts = t0 :: rest →
      ((∃ t ∈ ts, t.shape ≠ t0.shape) → ∃ e, Tensor.stack ts = Except.error e) ∧
      ((∀ t ∈ ts, t.shape = t0.shape) → ∃ r, Tensor.stack ts = Except.ok r ∧
        r.shape = ts.length :: t0.shape ∧ r.buffer = ts.flatMap Tensor.elems)) := by
  constructor
  · intro h
    subst h
    exact ⟨_, rfl⟩
  · intro t0 rest h
    subst h
    constructor
    · rintro ⟨t, ht, hne⟩
      rw [Tensor.stack, if_neg (fun hall => hne (hall t ht))]
      exact ⟨_, rfl⟩
    · intro hall
      rw [Tensor.stack, if_pos hall]
      exact ⟨_, rfl, rfl, rfl⟩

/-- C8 witness: stacking fails on the empty input and on a shape mismatch,
and succeeds on two tensors of shape (3) with result shape (2, 3). -/
theorem stack_spec_witness :
    (Tensor.stack []).isOk = false ∧
    (Tensor.stack [s3a, mA]).isOk = false ∧
    (Tensor.stack [s3a, s3b]).isOk = true := by
  refine ⟨?_, ?_, ?_⟩
  · obtain ⟨e, he⟩ := (stack_spec []).1 rfl
    rw [he]
    rfl
  · obtain ⟨e, he⟩ := ((stack_spec [s3a, mA]).2 s3a [mA] rfl).1 ⟨mA, by decide, by decide⟩
    rw [he]
    rfl
  · obtain ⟨r, hr, -, -⟩ := ((stack_spec [s3a, s3b]).2 s3a [s3b] rfl).2 (by decide)
    rw [hr]
    rfl

/-- A tensor materialized over allIx satisfies the length invariant. -/
theorem lenInv_mk (sh st : List Nat) (f : List Nat → F32) :
    (Tensor.mk sh st ((allIx sh).map f)).lenInv := by
  show ((allIx sh).map f).length = sh.prod
  rw [List.length_map, allIx_length]

/-- Reading every position of a list in range order multiplies out to the
list product. -/
theorem range_map_getD_prod (l : List Nat) :
    ((List.range l.length).map (fun a => l.getD a 0)).prod = l.prod := by
  induction l with
  | nil => simp
  | cons x xs ih =>
    rw [List.length_cons, List.range_succ_eq_map, List.map_cons, List.map_map]
    rw [List.prod_cons, List.prod_cons]
    congr 1

/-- Gathering a list through a permutation of its positions preserves the
product of its entries. -/
theorem perm_prod (axes l : List Nat) (hnd : axes.Nodup)
    (hlt : ∀ a ∈ axes, a < l.length) (hlen : axes.length = l.length) :
    (axes.map (fun a => l.getD a 0)).prod = l.prod := by
  have hperm : axes.Perm (List.range l.length) := by
    apply List.perm_of_nodup_nodup_toFinset_eq hnd (List.nodup_range l.length)
    apply Finset.eq_of_subset_of_card_le
    · intro x hx
      simp only [List.mem_toFinset, List.mem_range] at *
      exact hlt x hx
    · rw [List.toFinset_card_of_nodup hnd,
        List.toFinset_card_of_nodup (List.nodup_range l.length), List.length_range, hlen]
  rw [(hperm.map (fun a => l.getD a 0)).prod_eq]
  exact range_map_getD_prod l

/-- C1: every tensor returned by a construction or transformation operation
satisfies the representation invariant: the length of its flat buffer
equals the product of its shape extents. Operations that reuse the buffer
of the receiver (map, reshape, flatten, transpose, permute, take) carry the
invariant of the receiver as a hypothesis; all others establish it
unconditionally. -/
theorem ops_preserve_len_inv :
    (∀ data shape t, Tensor.new data shape = some t → t.lenInv) ∧
    (∀ shape, (Tensor.zeros shape).lenInv) ∧
    (∀ rng shape, (Tensor.random rng shape).lenInv) ∧
    (∀ a b t, Tensor.add a b = some t → t.lenInv) ∧
    (∀ a b t, Tensor.div a b = some t → t.lenInv) ∧
    (∀ t f, t.lenInv → (Tensor.map t f).lenInv) ∧
    (∀ t sh u, t.lenInv → Tensor.reshape t sh = some u → u.lenInv) ∧
    (∀ t u, t.lenInv → Tensor.flatten t = some u → u.lenInv) ∧
    (∀ t u, t.lenInv → Tensor.transpose t = some u → u.lenInv) ∧
    (∀ t axes u, t.lenInv → Tensor.permute t axes = some u → u.lenInv) ∧
    (∀ t rs u, Tensor.slice t rs = some u → u.lenInv) ∧
    (∀ t target u, Tensor.broadcast t target = some u → u.lenInv) ∧
    (∀ t idxs u, t.lenInv → Tensor.take t idxs = some u → u.lenInv) ∧
    (∀ ts r, Tensor.stack ts = Except.ok r → r.lenInv) ∧
    (∀ t i u v, Tensor.split_at t i = some (u, v) → u.lenInv ∧ v.lenInv) ∧
    (∀ a b r, Tensor.matmul a b = some r → r.lenInv) ∧
    (∀ t axis r, Tensor.sum_along_axis t axis = some r → r.lenInv) ∧
    (∀ t axis r, Tensor.reduce_sum t axis = some r → r.lenInv) ∧
    (∀ t axis r, Tensor.mean_axis t axis = some r → r.lenInv) ∧
    (∀ t axis r, Tensor.argmax t axis = some r → r.lenInv) := by
  have hsum : ∀ t axis r, Tensor.sum_along_axis t axis = some r → r.lenInv := by
    intro t axis r h
    unfold Tensor.sum_along_axis at h
    split at h
    · obtain rfl := Option.some.inj h
      exact lenInv_mk _ _ _
    · cases h
  refine ⟨?_, ?_, ?_, ?_, ?_, ?_, ?_, ?_, ?_, ?_, ?_, ?_, ?_, ?_, ?_, ?_, hsum, ?_, ?_, ?_⟩
  · intro data shape t h
    unfold Tensor.new at h
    split at h
    · rename_i hc
      obtain rfl := Option.some.inj h
      exact hc
    · cases h
  · intro shape
    show (List.replicate shape.prod (F32.val 0)).length = shape.prod
    rw [List.length_replicate]
  · intro rng shape
    show ((List.range shape.prod).map rng).length = shape.prod
    rw [List.length_map, List.length_range]
  · intro a b t h
    unfold Tensor.add at h
    obtain ⟨sh, -, rfl⟩ := Option.map_eq_some'.mp h
    exact lenInv_mk _ _ _
  · intro a b t h
    unfold Tensor.div at h
    obtain ⟨sh, -, rfl⟩ := Option.map_eq_some'.mp h
    exact lenInv_mk _ _ _
  · intro t f h
    show (t.buffer.map f).length = t.shape.prod
    rw [List.length_map]
    exact h
  · intro t sh u hl h
    unfold Tensor.reshape at h
    split at h
    · rename_i hc
      obtain rfl := Option.some.inj h
      show t.buffer.length = sh.prod
      rw [hl]
      exact hc.1.symm
    · cases h
  · intro t u hl h
    unfold Tensor.flatten at h
    split at h
    · obtain rfl := Option.some.inj h
      show t.buffer.length = List.prod [t.shape.prod]
      simp [hl]
    · cases h
  · intro t u hl h
    unfold Tensor.transpose at h
    split at h
    · cases h
    · obtain rfl := Option.some.inj h
      show t.buffer.length = t.shape.reverse.prod
      rw [List.prod_reverse]
      exact hl
  · intro t axes u hl h
    unfold Tensor.permute at h
    split at h
    · rename_i hc
      obtain rfl := Option.some.inj h
      show t.buffer.length = (axes.map (fun a => t.shape.getD a 0)).prod
      rw [perm_prod axes t.shape hc.2.1 hc.2.2 hc.1]
      exact hl
    · cases h
  · intro t rs u h
    unfold Tensor.slice at h
    split at h
    · obtain rfl := Option.some.inj h
      exact lenInv_mk _ _ _
    · cases h
  · intro t target u h
    unfold Tensor.broadcast at h
    split at h
    · obtain rfl := Option.some.inj h
      exact lenInv_mk _ _ _
    · cases h
  · intro t idxs u hl h
    unfold Tensor.take at h
    split at h
    · cases h
    · rename_i d0 rest heq
      split at h
      · rename_i hc
        obtain rfl := Option.some.inj h
        show (idxs.flatMap _).length = (idxs.length :: rest).prod
        have hl2 : t.buffer.length = t.shape.prod := hl
        rw [heq] at hl2
        have hd0 : 0 < d0 := Nat.pos_of_ne_zero hc.1
        have hst : t.buffer.length / d0 = rest.prod := by
          rw [hl2, List.prod_cons, Nat.mul_div_cancel_left _ hd0]
        have hlens : ∀ i ∈ idxs,
            ((t.buffer.drop (i * (t.buffer.length / d0))).take
              (t.buffer.length / d0)).length = rest.prod := by
          intro i hi
          have hbound := hc.2.2 i hi
          rw [List.length_take, List.length_drop]
          have hle : i * (t.buffer.length / d0) + t.buffer.length / d0 ≤ t.buffer.length := by
            rw [← Nat.succ_mul]
            exact hbound
          rw [hst] at hle ⊢
          exact Nat.min_eq_left (Nat.le_sub_of_add_le (by rw [Nat.add_comm] at hle; exact hle))
        rw [List.length_flatMap, List.prod_cons]
        have hmapc : idxs.map (List.length ∘ fun i =>
            (t.buffer.drop (i * (t.buffer.length / d0))).take (t.buffer.length / d0)) =
            idxs.map (fun _ => rest.prod) :=
          List.map_congr_left (fun i hi => hlens i hi)
        rw [hmapc, List.map_const']
        simp [List.sum_replicate, smul_eq_mul]
      · cases h
  · intro ts r h
    unfold Tensor.stack at h
    split at h
    · cases h
    · rename_i t0 rest
      split at h
      · rename_i hall
        obtain rfl := Except.ok.inj h
        show ((t0 :: rest).flatMap Tensor.elems).length = ((t0 :: rest).length :: t0.shape).prod
        rw [List.length_flatMap, List.prod_cons]
        have hmapc : (t0 :: rest).map (List.length ∘ Tensor.elems) =
            (t0 :: rest).map (fun _ => t0.shape.prod) :=
          List.map_congr_left (fun t ht => by
            show t.elems.length = t0.shape.prod
            rw [elems_length, hall t ht])
        rw [hmapc, List.map_const']
        simp [List.sum_replicate, smul_eq_mul]
      · cases h
  · intro t i u v h
    unfold Tensor.split_at at h
    split at h
    · split at h
      · simp only [Option.some.injEq, Prod.mk.injEq] at h
        obtain ⟨rfl, rfl⟩ := h
        exact ⟨lenInv_mk _ _ _, lenInv_mk _ _ _⟩
      · cases h
    · cases h
  · intro a b r h
    unfold Tensor.matmul at h
    split at h
    · split at h
      · obtain rfl := Option.some.inj h
        exact lenInv_mk _ _ _
      · cases h
    · cases h
  · intro t axis r h
    unfold Tensor.reduce_sum at h
    exact hsum t axis r h
  · intro t axis r h
    unfold Tensor.mean_axis at h
    split at h
    · obtain rfl := Option.some.inj h
      exact lenInv_mk _ _ _
    · cases h
  · intro t axis r h
    unfold Tensor.argmax at h
    split at h
    · obtain ⟨vals, hv, rfl⟩ := Option.map_eq_some'.mp h
      show vals.length = (remAxis t.shape axis).prod
      rw [mapOpt_length hv, allIx_length]
    · cases h

/-- C1 witness at concrete inputs. -/
theorem ops_preserve_len_inv_witness :
    (Tensor.map tCM (fun x => x)).lenInv ∧ tCM.lenInv :=
  ⟨ops_preserve_len_inv.2.2.2.2.2.1 tCM (fun x => x) (by decide),
   ops_preserve_len_inv.2.2.2.2.2.2.2.2.1 tRM tCM (by decide) (by decide)⟩

/-- Once a NaN sits anywhere in the remaining elements, the unwrapped
max_by fold aborts: either the accumulator is already NaN and the next
comparison fails, or the fold reaches the NaN element and that comparison
fails. -/
theorem foldlM_max_nan :
    ∀ (rest : List F32) (acc : F32), F32.nan ∈ rest →
      rest.foldlM (fun acc y => (F32.pcmp acc y).map (fun o => if o = .gt then acc else y)) acc
        = none := by
  intro rest
  induction rest with
  | nil =>
    intro acc h
    cases h
  | cons y ys ih =>
    intro acc h
    rw [List.foldlM_cons]
    cases hy : F32.pcmp acc y with
    | none => simp [hy]
    | some o =>
      have hyn : y ≠ F32.nan := by
        intro h2
        subst h2
        cases acc <;> simp [F32.pcmp] at hy
      have hmem : F32.nan ∈ ys := by
        rcases List.mem_cons.mp h with h2 | h2
        · exact absurd h2.symm hyn
        · exact h2
      simp only [hy, Option.map_some', Option.some_bind]
      exact ih _ hmem

/-- C10 counterexample: a one-element tensor holding NaN does not abort;
max_by performs no comparison and max returns the NaN element. -/
theorem max_nan_counterexample :
    nan1.elems = [F32.nan] ∧ nan1.elems ≠ [] ∧ Tensor.max nan1 = some F32.nan :=
  ⟨by decide, by decide, by decide⟩

/-- C10 amended: max aborts on the empty tensor and on every tensor of at
least two elements containing a NaN; a tensor with exactly one element
returns that element without any comparison, even when it is NaN. -/
theorem max_amended (t : Tensor) :
    (t.elems = [] → t.max = none) ∧
    (∀ x, t.elems = [x] → t.max = some x) ∧
    (2 ≤ t.elems.length → F32.nan ∈ t.elems → t.max = none) := by
  refine ⟨?_, ?_, ?_⟩
  · intro h
    simp [Tensor.max, h]
  · intro x h
    simp [Tensor.max, h]
  · intro hlen hmem
    rcases helems : t.elems with - | ⟨x, rest⟩
    · rw [helems] at hlen
      simp at hlen
    · rcases rest with - | ⟨y, ys⟩
      · rw [helems] at hlen
        simp at hlen
      · simp only [Tensor.max, helems]
        by_cases hx : x = F32.nan
        · subst hx
          rw [List.foldlM_cons]
          have hcmp : F32.pcmp F32.nan y = none := rfl
          simp [hcmp]
        · have hmem2 : F32.nan ∈ y :: ys := by
            rw [helems] at hmem
            rcases List.mem_cons.mp hmem with h2 | h2
            · exact absurd h2.symm hx
            · exact h2
          exact foldlM_max_nan (y :: ys) x hmem2

/-- C10 amended witness at concrete inputs. -/
theorem max_amended_witness :
    Tensor.max empty0 = none ∧ Tensor.max nanPair = none :=
  ⟨(max_amended empty0).1 (by decide), (max_amended nanPair).2.2 (by decide) (by decide)⟩

/-- A valid index of a shape broadcast against the same shape is itself:
coordinates on extent-one axes are already zero. -/
theorem bcIx_self (s ix : List Nat) (hmem : ix ∈ allIx s) : bcIx s ix = ix := by
  have h := mem_allIx.mp hmem
  unfold bcIx
  rw [h.length_eq, Nat.sub_self, List.drop_zero]
  induction h with
  | nil => rfl
  | cons hd htl ihh =>
    rename_i i d ix2 s2
    rw [List.zipWith_cons_cons]
    congr 1
    · by_cases hd1 : d = 1
      · subst hd1
        have hi0 : i = 0 := by omega
        subst hi0
        simp
      · rw [if_neg hd1]
    · simpa using ihh (mem_allIx.mpr htl)

/-- Every shape broadcasts to itself. -/
theorem canBroadcastTo_self (s : List Nat) : canBroadcastTo s s = true := by
  unfold canBroadcastTo
  rw [Bool.and_eq_true]
  refine ⟨by simp, ?_⟩
  rw [Nat.sub_self]
  simp only [List.replicate_zero, List.nil_append, List.all_eq_true]
  intro p hp
  have : p.1 = p.2 := by
    induction s with
    | nil => cases hp
    | cons d rest ih =>
      rcases List.mem_cons.mp hp with h | h
      · rw [h]
      · exact ih h
  simp [this]

/-- A fold of writes at positions different from p leaves position p
unchanged. -/
theorem foldl_set_getD_ne (st : List Nat) (g : List Nat → F32) (p : Nat) :
    ∀ (l : List (List Nat)) (b : List F32), (∀ i ∈ l, offsetOf st i ≠ p) →
      (l.foldl (fun b i => b.set (offsetOf st i) (g i)) b).getD p (F32.val 0) =
        b.getD p (F32.val 0) := by
  intro l
  induction l with
  | nil =>
    intro b _
    rfl
  | cons j rest ih =>
    intro b hne
    rw [List.foldl_cons, ih _ (fun i hi => hne i (List.mem_cons_of_mem j hi))]
    have hq : offsetOf st j ≠ p := hne j (List.mem_cons_self j rest)
    simp [List.getD, List.getElem?_set_ne hq]

/-- After folding writes over a family of indices with distinct in-bounds
offsets, each written position holds its value. -/
theorem foldl_set_getD (st : List Nat) :
    ∀ (ixs : List (List Nat)) (b : List F32) (g : List Nat → F32),
      (ixs.map (offsetOf st)).Nodup →
      (∀ ix ∈ ixs, offsetOf st ix < b.length) →
      ∀ ix ∈ ixs,
        (ixs.foldl (fun b i => b.set (offsetOf st i) (g i)) b).getD
          (offsetOf st ix) (F32.val 0) = g ix := by
  intro ixs
  induction ixs with
  | nil =>
    intro b g _ _ ix h
    cases h
  | cons j rest ih =>
    intro b g hnd hin ix hmem
    rw [List.foldl_cons]
    rcases List.mem_cons.mp hmem with rfl | hmem2
    · have hne : ∀ i ∈ rest, offsetOf st i ≠ offsetOf st ix := by
        intro i hi heq
        exact (List.nodup_cons.mp hnd).1 (heq ▸ List.mem_map_of_mem (offsetOf st) hi)
      rw [foldl_set_getD_ne st g _ rest _ hne]
      have hlt : offsetOf st ix < b.length := hin ix hmem
      simp [List.getD, List.getElem?_set, hlt]
    · apply ih _ g (List.nodup_cons.mp hnd).2 _ ix hmem2
      intro i hi
      rw [List.length_set]
      exact hin i (List.mem_cons_of_mem j hi)

/-- C5 counterexample: sub_assign succeeds although the shapes of the
receiver (2, 2) and the subtrahend (2) differ; ndarray broadcasts the
subtrahend over the rows. -/
theorem sub_assign_counterexample :
    mA.shape ≠ vec2.shape ∧
    Tensor.sub_assign mA vec2 =
      some ⟨[2, 2], [2, 1],
        [F32.val (-9), F32.val (-18), F32.val (-7), F32.val (-16)]⟩ :=
  ⟨by decide, by decide⟩

/-- C5 amended: sub_assign aborts exactly when the subtrahend does not
broadcast to the shape of the receiver (shapes need not match exactly); the
receiver keeps its shape, and when the shapes do match exactly every
element of the result is the pre-mutation difference of corresponding
elements. The offset hypotheses state that the receiver addresses its
buffer injectively and within bounds, which holds for every layout the
source constructs. -/
theorem sub_assign_amended (a b : Tensor) :
    (canBroadcastTo b.shape a.shape = false → Tensor.sub_assign a b = none) ∧
    (∀ c, Tensor.sub_assign a b = some c → c.shape = a.shape ∧ c.strides = a.strides) ∧
    (a.shape = b.shape →
      ((allIx a.shape).map (offsetOf a.strides)).Nodup →
      (∀ ix ∈ allIx a.shape, offsetOf a.strides ix < a.buffer.length) →
      ∃ c, Tensor.sub_assign a b = some c ∧ c.shape = a.shape ∧
        ∀ ix ∈ allIx a.shape, c.get ix = F32.sub (a.get ix) (b.get ix)) := by
  refine ⟨?_, ?_, ?_⟩
  · intro h
    rw [Tensor.sub_assign, if_neg (by simp [h])]
  · intro c h
    unfold Tensor.sub_assign at h
    split at h
    · obtain rfl := Option.some.inj h
      exact ⟨rfl, rfl⟩
    · cases h
  · intro hsh hnd hin
    have hcb : canBroadcastTo b.shape a.shape = true := by
      rw [← hsh]
      exact canBroadcastTo_self a.shape
    refine ⟨⟨a.shape, a.strides,
        (allIx a.shape).foldl
          (fun buf i => buf.set (offsetOf a.strides i) (F32.sub (a.get i) (b.bget i)))
          a.buffer⟩, ?_, rfl, ?_⟩
    · rw [Tensor.sub_assign, if_pos (by simp [hcb])]
    intro ix hix
    show ((allIx a.shape).foldl
        (fun buf i => buf.set (offsetOf a.strides i) (F32.sub (a.get i) (b.bget i)))
        a.buffer).getD (offsetOf a.strides ix) (F32.val 0) = F32.sub (a.get ix) (b.get ix)
    rw [foldl_set_getD a.strides (allIx a.shape) a.buffer
      (fun i => F32.sub (a.get i) (b.bget i)) hnd hin ix hix]
    have hb : b.bget ix = b.get ix := by
      unfold Tensor.bget
      rw [bcIx_self b.shape ix (hsh ▸ hix)]
    rw [hb]

/-- C5 amended witness at concrete inputs. -/
theorem sub_assign_amended_witness : (Tensor.sub_assign mA mI).isSome = true := by
  obtain ⟨c, hc, -, -⟩ := (sub_assign_amended mA mI).2.2 (by decide) (by decide) (by decide)
  rw [hc]
  rfl

/-- A successful partial comparison has no NaN operand. -/
theorem F32.pcmp_some_not_nan {a b : F32} {o : Ordering} (h : F32.pcmp a b = some o) :
    a ≠ F32.nan ∧ b ≠ F32.nan := by
  cases a <;> cases b <;> simp [F32.pcmp] at h ⊢

/-- NaN-free operands always compare. -/
theorem F32.not_nan_pcmp {a b : F32} (ha : a ≠ F32.nan) (hb : b ≠ F32.nan) :
    ∃ o, F32.pcmp a b = some o := by
  cases a with
  | nan => exact absurd rfl ha
  | val qa =>
    cases b with
    | nan => exact absurd rfl hb
    | val qb => exact ⟨_, rfl⟩

/-- The induced order on values coincides with the rational order. -/
theorem F32.fle_val {x y : ℚ} : F32.fle (F32.val x) (F32.val y) ↔ x ≤ y := by
  unfold F32.fle
  simp only [F32.pcmp]
  split_ifs with h1 h2
  · simp [le_of_lt h1]
  · simp [le_of_eq h2]
  · have hnot : ¬ x ≤ y := by
      rcases lt_trichotomy x y with h | h | h
      · exact absurd h h1
      · exact absurd h h2
      · exact not_le.mpr h
    simp [hnot]

theorem F32.flt_val {x y : ℚ} : F32.flt (F32.val x) (F32.val y) ↔ x < y := by
  unfold F32.flt
  simp only [F32.pcmp]
  split_ifs with h1 h2
  · simp [h1]
  · subst h2
    simp
  · simp [h1]

theorem F32.fle_refl {a : F32} (h : a ≠ F32.nan) : F32.fle a a := by
  cases a with
  | nan => exact absurd rfl h
  | val q => exact F32.fle_val.mpr le_rfl

theorem F32.fle_of_flt {a b : F32} (h : F32.flt a b) : F32.fle a b := Or.inl h

theorem F32.fle_not_nan {a b : F32} (h : F32.fle a b) : a ≠ F32.nan ∧ b ≠ F32.nan := by
  rcases h with h | h
  · exact F32.pcmp_some_not_nan h
  · exact F32.pcmp_some_not_nan h

theorem F32.flt_not_nan {a b : F32} (h : F32.flt a b) : a ≠ F32.nan ∧ b ≠ F32.nan :=
  F32.pcmp_some_not_nan h

theorem F32.fle_trans {a b c : F32} (h1 : F32.fle a b) (h2 : F32.fle b c) : F32.fle a c := by
  obtain ⟨ha, hb⟩ := F32.fle_not_nan h1
  obtain ⟨-, hc⟩ := F32.fle_not_nan h2
  cases a with
  | nan => exact absurd rfl ha
  | val x =>
    cases b with
    | nan => exact absurd rfl hb
    | val y =>
      cases c with
      | nan => exact absurd rfl hc
      | val z => exact F32.fle_val.mpr (le_trans (F32.fle_val.mp h1) (F32.fle_val.mp h2))

theorem F32.flt_fle_trans {a b c : F32} (h1 : F32.flt a b) (h2 : F32.fle b c) :
    F32.flt a c := by
  obtain ⟨ha, hb⟩ := F32.flt_not_nan h1
  obtain ⟨-, hc⟩ := F32.fle_not_nan h2
  cases a with
  | nan => exact absurd rfl ha
  | val x =>
    cases b with
    | nan => exact absurd rfl hb
    | val y =>
      cases c with
      | nan => exact absurd rfl hc
      | val z =>
        exact F32.flt_val.mpr (lt_of_lt_of_le (F32.flt_val.mp h1) (F32.fle_val.mp h2))

/-- A strictly greater comparison flips to a strictly smaller one. -/
theorem F32.pcmp_gt {a b : F32} (h : F32.pcmp a b = some Ordering.gt) : F32.flt b a := by
  cases a with
  | nan => simp [F32.pcmp] at h
  | val x =>
    cases b with
    | nan => simp [F32.pcmp] at h
    | val y =>
      simp only [F32.pcmp] at h
      split_ifs at h with h1 h2
      · simp at h
      · simp at h
      · exact F32.flt_val.mpr (lt_of_le_of_ne (le_of_not_lt h1) (fun he => h2 he.symm))

/-- A comparison that is not strictly greater witnesses a weak inequality. -/
theorem F32.pcmp_not_gt {a b : F32} {o : Ordering} (h : F32.pcmp a b = some o)
    (ho : o ≠ Ordering.gt) : F32.fle a b := by
  cases a with
  | nan => simp [F32.pcmp] at h
  | val x =>
    cases b with
    | nan => simp [F32.pcmp] at h
    | val y =>
      simp only [F32.pcmp] at h
      split_ifs at h with h1 h2
      · exact F32.fle_val.mpr (le_of_lt h1)
      · exact F32.fle_val.mpr (le_of_eq h2)
      · obtain rfl := Option.some.inj h
        exact absurd rfl ho

/-- Elements listed by idxFrom carry positions at least the start value. -/
theorem idxFrom_ge : ∀ (l : List F32) (i : Nat) (p : Nat × F32), p ∈ idxFrom i l → i ≤ p.1 := by
  intro l
  induction l with
  | nil =>
    intro i p h
    cases h
  | cons x xs ih =>
    intro i p h
    rcases List.mem_cons.mp h with rfl | h2
    · exact le_refl _
    · exact le_trans (Nat.le_succ i) (ih (i + 1) p h2)

/-- Positions listed by idxFrom are strictly increasing. -/
theorem idxFrom_pairwise : ∀ (l : List F32) (i : Nat),
    List.Pairwise (fun p q : Nat × F32 => p.1 < q.1) (idxFrom i l) := by
  intro l
  induction l with
  | nil =>
    intro i
    exact List.Pairwise.nil
  | cons x xs ih =>
    intro i
    refine List.Pairwise.cons ?_ (ih (i + 1))
    intro q hq
    have := idxFrom_ge xs (i + 1) q hq
    show i < q.1
    omega

/-- Every listed pair is a position paired with the element there. -/
theorem idxFrom_mem_spec : ∀ (l : List F32) (i : Nat) (p : Nat × F32), p ∈ idxFrom i l →
    ∃ j, j < l.length ∧ p.1 = i + j ∧ p.2 = l.getD j (F32.val 0) := by
  intro l
  induction l with
  | nil =>
    intro i p h
    cases h
  | cons x xs ih =>
    intro i p h
    rcases List.mem_cons.mp h with rfl | h2
    · exact ⟨0, by simp, by simp, by simp⟩
    · obtain ⟨j, hj, h1, h2⟩ := ih (i + 1) p h2
      refine ⟨j + 1, by simpa using hj, by omega, by simpa using h2⟩

/-- Conversely every position below the length is listed with its element. -/
theorem idxFrom_mem_of_lt : ∀ (l : List F32) (i j : Nat), j < l.length →
    (i + j, l.getD j (F32.val 0)) ∈ idxFrom i l := by
  intro l
  induction l with
  | nil =>
    intro i j h
    simp at h
  | cons x xs ih =>
    intro i j h
    cases j with
    | zero => simp [idxFrom]
    | succ j2 =>
      refine List.mem_cons_of_mem _ ?_
      have heq : i + (j2 + 1) = (i + 1) + j2 := by omega
      rw [heq]
      simpa using ih (i + 1) j2 (by simpa using h)

/-- When every element computation succeeds, mapOpt is the plain map. -/
theorem mapOpt_eq_map {f : α → Option β} {g : α → β} :
    ∀ {l : List α}, (∀ x ∈ l, f x = some (g x)) → mapOpt f l = some (l.map g) := by
  intro l
  induction l with
  | nil =>
    intro _
    rfl
  | cons x xs ih =>
    intro h
    unfold mapOpt
    rw [h x (List.mem_cons_self x xs), ih (fun y hy => h y (List.mem_cons_of_mem x hy))]
    rfl

/-- The max_by fold over NaN-free (position, value) pairs with strictly
increasing positions returns one of the pairs, which is weakly maximal,
and every pair at a later position is strictly smaller (ties keep the
later element, so the result is the last maximal pair). -/
theorem maxByPair_fold :
    ∀ (rest : List (Nat × F32)) (acc : Nat × F32),
      (∀ p ∈ acc :: rest, p.2 ≠ F32.nan) →
      List.Pairwise (fun p q : Nat × F32 => p.1 < q.1) (acc :: rest) →
      ∃ r, rest.foldlM
          (fun acc q => (F32.pcmp acc.2 q.2).map (fun o => if o = .gt then acc else q)) acc
        = some r ∧ r ∈ acc :: rest ∧
        (∀ p ∈ acc :: rest, F32.fle p.2 r.2) ∧
        (∀ p ∈ acc :: rest, r.1 < p.1 → F32.flt p.2 r.2) := by
  intro rest
  induction rest with
  | nil =>
    intro acc hnn _
    refine ⟨acc, rfl, List.mem_cons_self _ _, ?_, ?_⟩
    · intro p hp
      rcases List.mem_cons.mp hp with rfl | h
      · exact F32.fle_refl (hnn p (List.mem_cons_self _ _))
      · cases h
    · intro p hp hlt
      rcases List.mem_cons.mp hp with rfl | h
      · omega
      · cases h
  | cons q rest2 ih =>
    intro acc hnn hpw
    have haccn : acc.2 ≠ F32.nan := hnn acc (List.mem_cons_self _ _)
    have hqn : q.2 ≠ F32.nan := hnn q (by simp)
    obtain ⟨o, ho⟩ := F32.not_nan_pcmp haccn hqn
    rw [List.foldlM_cons]
    simp only [ho, Option.map_some', Option.some_bind]
    have hpw1 := List.pairwise_cons.mp hpw
    have hpw2 := List.pairwise_cons.mp hpw1.2
    by_cases hgt : o = Ordering.gt
    · rw [if_pos hgt]
      have hnn2 : ∀ p ∈ acc :: rest2, p.2 ≠ F32.nan := by
        intro p hp
        rcases List.mem_cons.mp hp with rfl | h
        · exact haccn
        · exact hnn p (by simp [h])
      have hpwa : List.Pairwise (fun p q : Nat × F32 => p.1 < q.1) (acc :: rest2) :=
        List.pairwise_cons.mpr
          ⟨fun x hx => hpw1.1 x (List.mem_cons_of_mem q hx), hpw2.2⟩
      obtain ⟨r, hfold, hmem, hfle, hlast⟩ := ih acc hnn2 hpwa
      have hqlt : F32.flt q.2 acc.2 := F32.pcmp_gt (hgt ▸ ho)
      have haccler : F32.fle acc.2 r.2 := hfle acc (List.mem_cons_self _ _)
      refine ⟨r, hfold, ?_, ?_, ?_⟩
      · rcases List.mem_cons.mp hmem with rfl | h
        · exact List.mem_cons_self _ _
        · simp [h]
      · intro p hp
        rcases List.mem_cons.mp hp with rfl | hp2
        · exact hfle p (List.mem_cons_self _ _)
        · rcases List.mem_cons.mp hp2 with rfl | hp3
          · exact F32.fle_trans (F32.fle_of_flt hqlt) haccler
          · exact hfle p (by simp [hp3])
      · intro p hp hrp
        rcases List.mem_cons.mp hp with rfl | hp2
        · exact hlast p (List.mem_cons_self _ _) hrp
        · rcases List.mem_cons.mp hp2 with rfl | hp3
          · exact F32.flt_fle_trans hqlt haccler
          · exact hlast p (by simp [hp3]) hrp
    · rw [if_neg hgt]
      have hnn2 : ∀ p ∈ q :: rest2, p.2 ≠ F32.nan := fun p hp => hnn p (by simp [List.mem_cons.mp hp])
      obtain ⟨r, hfold, hmem, hfle, hlast⟩ := ih q hnn2 hpw1.2
      have haccle : F32.fle acc.2 q.2 := F32.pcmp_not_gt ho hgt
      have hqler : F32.fle q.2 r.2 := hfle q (List.mem_cons_self _ _)
      refine ⟨r, hfold, ?_, ?_, ?_⟩
      · exact List.mem_cons_of_mem acc hmem
      · intro p hp
        rcases List.mem_cons.mp hp with rfl | hp2
        · exact F32.fle_trans haccle hqler
        · exact hfle p hp2
      · intro p hp hrp
        rcases List.mem_cons.mp hp with rfl | hp2
        · exfalso
          have := hpw1.1 r hmem
          omega
        · exact hlast p hp2 hrp

/-- On a non-empty NaN-free lane, laneArgmax returns the last index holding
the maximum value: the value there is weakly above every lane element, and
strictly above every element at a later index. -/
theorem laneArgmax_spec (lane : List F32) (hne : lane ≠ []) (hnn : F32.nan ∉ lane) :
    ∃ j, laneArgmax lane = some j ∧ j < lane.length ∧
      (∀ j2, j2 < lane.length →
        F32.fle (lane.getD j2 (F32.val 0)) (lane.getD j (F32.val 0))) ∧
      (∀ j2, j < j2 → j2 < lane.length →
        F32.flt (lane.getD j2 (F32.val 0)) (lane.getD j (F32.val 0))) := by
  have hnn2 : ∀ p ∈ idxFrom 0 lane, p.2 ≠ F32.nan := by
    intro p hp
    obtain ⟨j, hj, -, h2⟩ := idxFrom_mem_spec lane 0 p hp
    intro hc
    apply hnn
    have hval : lane.getD j (F32.val 0) = F32.nan := by rw [← h2, hc]
    have hmem2 : lane.getD j (F32.val 0) ∈ lane := by
      rw [List.getD_eq_getElem lane (F32.val 0) hj]
      exact List.getElem_mem hj
    exact hval ▸ hmem2
  obtain ⟨x, rest, hlane⟩ : ∃ x rest, lane = x :: rest := by
    cases lane with
    | nil => exact absurd rfl hne
    | cons a b => exact ⟨a, b, rfl⟩
  have hpw := idxFrom_pairwise lane 0
  have hform : idxFrom 0 lane = (0, x) :: idxFrom 1 rest := by rw [hlane]; rfl
  rw [hform] at hnn2 hpw
  obtain ⟨r, hfold, hmem, hfle, hlast⟩ := maxByPair_fold (idxFrom 1 rest) (0, x) hnn2 hpw
  obtain ⟨j, hj, hj1, hj2⟩ := idxFrom_mem_spec lane 0 r (hform ▸ hmem)
  have hr1 : r.1 = j := by omega
  refine ⟨r.1, ?_, ?_, ?_, ?_⟩
  · show (maxByPair (idxFrom 0 lane)).map (fun p => p.1) = some r.1
    rw [hform]
    show (maxByPair ((0, x) :: idxFrom 1 rest)).map (fun p => p.1) = some r.1
    simp only [maxByPair]
    rw [hfold]
    rfl
  · omega
  · intro j2 hj2l
    have hpm : (0 + j2, lane.getD j2 (F32.val 0)) ∈ idxFrom 0 lane :=
      idxFrom_mem_of_lt lane 0 j2 hj2l
    have hres := hfle _ (hform ▸ hpm)
    rw [hr1, ← hj2]
    exact hres
  · intro j2 hlt hj2l
    have hpm : (0 + j2, lane.getD j2 (F32.val 0)) ∈ idxFrom 0 lane :=
      idxFrom_mem_of_lt lane 0 j2 hj2l
    have hres := hlast _ (hform ▸ hpm) (by omega)
    rw [hr1, ← hj2]
    exact hres

/-- C6 counterexample: on the lane [5, 5] the two elements tie and argmax
returns index 1, the last maximal index, not the first. -/
theorem argmax_first_counterexample :
    tie2.get [0] = tie2.get [1] ∧
    Tensor.argmax tie2 0 = some ⟨[], [], [F32.val 1]⟩ ∧
    F32.val 1 ≠ F32.val 0 :=
  ⟨by decide, by decide, by decide⟩

/-- C6 amended: argmax aborts when the axis is at least the rank; on an
in-bounds axis with non-empty NaN-free lanes it succeeds with the axis
removed from the shape, and for each remaining index it stores the LAST
index of the lane holding the maximum value (weakly above all elements,
strictly above all later ones) — ties are broken towards the last maximal
index, not the first. -/
theorem argmax_amended (t : Tensor) (axis : Nat) :
    (t.shape.length ≤ axis → t.argmax axis = none) ∧
    (axis < t.shape.length →
      (∀ ix ∈ allIx (remAxis t.shape axis),
        laneOf t axis ix ≠ [] ∧ F32.nan ∉ laneOf t axis ix) →
      ∃ r, t.argmax axis = some r ∧ r.shape = remAxis t.shape axis ∧
        ∀ ix ∈ allIx (remAxis t.shape axis), ∃ j : Nat,
          r.get ix = F32.val (j : ℚ) ∧ j < (laneOf t axis ix).length ∧
          (∀ j2, j2 < (laneOf t axis ix).length →
            F32.fle ((laneOf t axis ix).getD j2 (F32.val 0))
              ((laneOf t axis ix).getD j (F32.val 0))) ∧
          (∀ j2, j < j2 → j2 < (laneOf t axis ix).length →
            F32.flt ((laneOf t axis ix).getD j2 (F32.val 0))
              ((laneOf t axis ix).getD j (F32.val 0)))) := by
  constructor
  · intro h
    unfold Tensor.argmax
    rw [if_neg (by omega)]
  · intro haxis hlanes
    have hsome : ∀ ix ∈ allIx (remAxis t.shape axis),
        (fun ix => (laneArgmax (laneOf t axis ix)).map (fun j => F32.val j)) ix =
          some ((fun ix =>
            F32.val (((laneArgmax (laneOf t axis ix)).getD 0 : Nat) : ℚ)) ix) := by
      intro ix hix
      obtain ⟨j, hj, -, -, -⟩ := laneArgmax_spec _ (hlanes ix hix).1 (hlanes ix hix).2
      simp [hj]
    have hmo := mapOpt_eq_map hsome
    unfold Tensor.argmax
    rw [if_pos haxis, hmo]
    refine ⟨_, rfl, rfl, ?_⟩
    intro ix hix
    obtain ⟨j, hj, hjlen, hmax, hlast⟩ :=
      laneArgmax_spec _ (hlanes ix hix).1 (hlanes ix hix).2
    refine ⟨j, ?_, hjlen, hmax, hlast⟩
    have hg := get_mk (remAxis t.shape axis)
      (fun ix => F32.val (((laneArgmax (laneOf t axis ix)).getD 0 : Nat) : ℚ)) ix hix
    rw [hg]
    show F32.val (((laneArgmax (laneOf t axis ix)).getD 0 : Nat) : ℚ) = F32.val (j : ℚ)
    rw [hj]
    rfl

/-- C6 amended witness at concrete inputs. -/
theorem argmax_amended_witness :
    Tensor.argmax tie2 2 = none ∧ (Tensor.argmax tRM 1).isSome = true := by
  refine ⟨(argmax_amended tie2 2).1 (by decide), ?_⟩
  obtain ⟨r, h1, -, -⟩ := (argmax_amended tRM 1).2 (by decide) (by decide)
  rw [h1]
  rfl
